import Mathlib

/-!
Verification of the splitwise settlement kernel.

The source is a single Rust function `simplify` that first aggregates
transactions into a net balance per person (a `HashMap<Person, i64>`),
then repeatedly matches the most negative against the most positive
balance (a `BTreeMap<i64, Person>` keyed by the signed amount) and emits
settlement debts until at most one entry remains.

The embedding below models the balance map as a total function
`Person → Int` (absent keys default to 0, as `or_default` does), and the
amount-keyed `BTreeMap` as a list of `(Int × Person)` pairs kept strictly
sorted by the amount key; inserting an existing key overwrites the stored
person, exactly as `BTreeMap::insert` replaces the value at a key.
The unspecified `HashMap` iteration order is fixed to first-mention order.
The `while` loop is written with explicit fuel, one unit per iteration;
`n` units of fuel are proved sufficient for `n` initial entries.
-/

namespace Splitwise

/-- Participants are opaque comparable identities (the source's `Person` newtype over a string). -/
abbrev Person := String

/-- Signed integer currency amounts (`i64` in the source, modelled as `Int`). -/
abbrev CurrencyUnit := Int

/-- One transaction: a payer plus the list of per-person owed shares. -/
structure Transaction where
  paid_by : Person
  split_by : List (Person × CurrencyUnit)
deriving DecidableEq

/-- A settlement instruction: `owing` pays `amount` to `owed`. -/
structure Debt where
  amount : CurrencyUnit
  owing : Person
  owed : Person
deriving DecidableEq

/-- Total of a transaction's split amounts (the `sum` over `split_by` in the source). -/
def totalOf (t : Transaction) : Int := (t.split_by.map Prod.snd).sum

/-- Debit every share from the running balance function, mirroring the inner `for` loop. -/
def debitAll (f : Person → Int) (s : List (Person × Int)) : Person → Int :=
  s.foldl (fun g e => fun q => if q = e.1 then g q - e.2 else g q) f

/-- Apply one transaction to the balance map: credit the payer with the total, debit each sharer. -/
def applyTx (f : Person → Int) (t : Transaction) : Person → Int :=
  debitAll (fun q => if q = t.paid_by then f q + totalOf t else f q) t.split_by

/-- Net balance of every person after folding all transactions: the source's `balances`
`HashMap`, viewed as a total function that is 0 on absent keys. -/
def balances (txs : List Transaction) : Person → Int :=
  txs.foldl applyTx (fun _ => 0)

/-- Persons mentioned by one transaction, i.e. the map keys its processing touches. -/
def mentioned (t : Transaction) : List Person := t.paid_by :: t.split_by.map Prod.fst

/-- Persons mentioned by any transaction, in order of appearance. -/
def mentionedAll : List Transaction → List Person
  | [] => []
  | t :: ts => mentioned t ++ mentionedAll ts

/-- Key set of the balances map, in first-mention order: a concrete choice of
iteration order for the source's `HashMap` (whose order is unspecified). -/
def participantsList (txs : List Transaction) : List Person := (mentionedAll txs).dedup

/-- Insertion into the amount-keyed ordered map (the `BTreeMap`), keeping keys strictly
sorted ascending; inserting an existing key overwrites the stored person. -/
def btInsert (k : Int) (v : Person) : List (Int × Person) → List (Int × Person)
  | [] => [(k, v)]
  | (k', v') :: rest =>
    if k < k' then (k, v) :: (k', v') :: rest
    else if k = k' then (k, v) :: rest
    else (k', v') :: btInsert k v rest

/-- Collect nonzero balances into the ordered map, in iteration order
(the `filter_map` plus `collect` of the source). -/
def insertAll (txs : List Transaction) : List Person → List (Int × Person) → List (Int × Person)
  | [], l => l
  | p :: ps, l =>
    insertAll txs ps (if balances txs p = 0 then l else btInsert (balances txs p) p l)

/-- The nonzero balances sorted ascending by amount: the `BTreeMap` the settlement loop consumes. -/
def sorted_balances (txs : List Transaction) : List (Int × Person) :=
  insertAll txs (participantsList txs) []

/-- The map after one settlement step: whichever side of the matched pair keeps a
nonzero residual is reinserted under the residual amount. -/
def settleNext (m : Int) (pm : Person) (M : Int) (pM : Person)
    (mid : List (Int × Person)) : List (Int × Person) :=
  if |m| > |M| then btInsert (m + M) pm mid
  else if |M| > |m| then btInsert (m + M) pM mid
  else mid

/-- The settlement `while` loop with explicit fuel, one unit per iteration:
pop the first (most negative) and last (most positive) entries, emit a debt
for the smaller magnitude, reinsert the residual side. -/
def settleLoopFuel : Nat → List (Int × Person) → List Debt
  | 0, _ => []
  | _ + 1, [] => []
  | _ + 1, [_] => []
  | fuel + 1, (m, pm) :: e :: rest =>
    Debt.mk (min |m| |((e :: rest).getLast (List.cons_ne_nil e rest)).1|) pm
        ((e :: rest).getLast (List.cons_ne_nil e rest)).2 ::
      settleLoopFuel fuel
        (settleNext m pm ((e :: rest).getLast (List.cons_ne_nil e rest)).1
          ((e :: rest).getLast (List.cons_ne_nil e rest)).2 ((e :: rest).dropLast))

/-- The settlement loop run to completion: `n` entries need at most `n` units of fuel. -/
def settleLoop (l : List (Int × Person)) : List Debt := settleLoopFuel l.length l

/-- The whole algorithm: aggregate net balances, then settle them greedily. -/
def simplify (txs : List Transaction) : List Debt := settleLoop (sorted_balances txs)

/-- Effect of one settlement debt on a balance map: the debtor's (negative) balance
rises by the amount paid, the creditor's (positive) balance falls by it. -/
def applyDebt (f : Person → Int) (d : Debt) : Person → Int :=
  fun p => f p + (if p = d.owing then d.amount else 0) - (if p = d.owed then d.amount else 0)

/-- Effect of a list of settlement debts, applied in order. -/
def applyDebts (f : Person → Int) (ds : List Debt) : Person → Int :=
  ds.foldl applyDebt f

/-- Balance a person holds inside an amount-keyed entry list (0 when absent). -/
def balOf (l : List (Int × Person)) (p : Person) : Int :=
  ((l.filter (fun e => e.2 == p)).map Prod.fst).sum

/-- Sum of the amount keys of an entry list. -/
def keySum (l : List (Int × Person)) : Int := (l.map Prod.fst).sum

/-- Number of participants whose aggregated net balance is nonzero. -/
def nonzeroCount (txs : List Transaction) : Nat :=
  ((participantsList txs).filter (fun p => balances txs p != 0)).length

/-- Signed contribution of one transaction to one person's balance. -/
def splitSum (s : List (Person × Int)) (p : Person) : Int :=
  (s.map (fun e => if e.1 = p then e.2 else 0)).sum

/-- Net effect of one transaction on one person's balance. -/
def contrib (t : Transaction) (p : Person) : Int :=
  (if t.paid_by = p then totalOf t else 0) - splitSum t.split_by p

/-- Whether inserting key `k` would hit no existing key (no `BTreeMap` overwrite). -/
def keyFresh (k : Int) (l : List (Int × Person)) : Bool := l.all (fun e => e.1 != k)

/-- Whether the residual reinsertion of one settlement step hits no existing key. -/
def settleNextFree (m M : Int) (mid : List (Int × Person)) : Bool :=
  if |m| > |M| then keyFresh (m + M) mid
  else if |M| > |m| then keyFresh (m + M) mid
  else true

/-- Whether every residual reinsertion performed by the settlement loop is collision-free. -/
def settleLoopFree : Nat → List (Int × Person) → Bool
  | 0, _ => true
  | _ + 1, [] => true
  | _ + 1, [_] => true
  | fuel + 1, (m, pm) :: e :: rest =>
    settleNextFree m ((e :: rest).getLast (List.cons_ne_nil e rest)).1 ((e :: rest).dropLast)
      && settleLoopFree fuel
        (settleNext m pm ((e :: rest).getLast (List.cons_ne_nil e rest)).1
          ((e :: rest).getLast (List.cons_ne_nil e rest)).2 ((e :: rest).dropLast))

/-- Whether building the amount-keyed map from the nonzero balances is collision-free. -/
def insertAllFree (txs : List Transaction) : List Person → List (Int × Person) → Bool
  | [], _ => true
  | p :: ps, l =>
    if balances txs p = 0 then insertAllFree txs ps l
    else keyFresh (balances txs p) l && insertAllFree txs ps (btInsert (balances txs p) p l)

/-- Whether the whole run of `simplify` never overwrites an existing amount key,
i.e. no two balances collide at any point (build phase or settlement loop). -/
def collisionFree (txs : List Transaction) : Bool :=
  insertAllFree txs (participantsList txs) []
    && settleLoopFree (sorted_balances txs).length (sorted_balances txs)

/-- The entries the build phase would produce absent collisions: one `(balance, person)`
pair per participant with nonzero balance, in iteration order. -/
def nzEntries (txs : List Transaction) (ps : List Person) : List (Int × Person) :=
  ps.filterMap (fun p => if balances txs p = 0 then none else some (balances txs p, p))

/-- The settlement loop with every implicit panic made explicit: it returns `none` if a
`pop_first`/`pop_last` unwrap would fail while the loop body runs (`Option.bind` of a
failed pop), or if any entry with a zero amount key is ever present in the map. -/
def settleLoopChecked : Nat → List (Int × Person) → Option (List Debt)
  | 0, _ => some []
  | fuel + 1, l =>
    if l.any (fun x => x.1 == 0) then none
    else if l.length ≤ 1 then some []
    else
      (l.head?).bind fun a =>
        (l.tail.getLast?).bind fun b =>
          (settleLoopChecked fuel (settleNext a.1 a.2 b.1 b.2 l.tail.dropLast)).map
            fun ds => Debt.mk (min |a.1| |b.1|) a.2 b.2 :: ds

/-- The five-transaction reference scenario from the source's test. -/
def exTxs : List Transaction :=
  [ ⟨"A", [("A", 50), ("B", 50)]⟩,
    ⟨"B", [("A", 25), ("B", 25)]⟩,
    ⟨"C", [("A", 100), ("B", 150), ("C", 50)]⟩,
    ⟨"D", [("D", 10), ("E", 10)]⟩,
    ⟨"A", [("A", 5), ("E", 15), ("C", 20)]⟩ ]

/-- The single-pair scenario: one transaction, A pays 100 split evenly with B. -/
def pairTxs : List Transaction := [⟨"A", [("A", 50), ("B", 50)]⟩]

/-- Two disjoint equal-amount transactions: the balances collide pairwise on the
amount keys (+10 twice, -10 twice), so the amount-keyed map silently drops entries. -/
def collideTxs : List Transaction := [⟨"A", [("B", 10)]⟩, ⟨"C", [("D", 10)]⟩]

/-- One transaction whose payer owes the whole split to themselves: every net balance is 0. -/
def selfTxs : List Transaction := [⟨"A", [("A", 50)]⟩]

/-! ### Aggregation phase: characterising `balances` -/

theorem sum_map_add {α : Type} (L : List α) (f g : α → Int) :
    (L.map (fun x => f x + g x)).sum = (L.map f).sum + (L.map g).sum := by
  induction L with
  | nil => simp
  | cons a L ih => simp [ih]; ring

theorem sum_map_sub {α : Type} (L : List α) (f g : α → Int) :
    (L.map (fun x => f x - g x)).sum = (L.map f).sum - (L.map g).sum := by
  induction L with
  | nil => simp
  | cons a L ih => simp [ih]; ring

theorem splitSum_cons (e : Person × Int) (s : List (Person × Int)) (p : Person) :
    splitSum (e :: s) p = (if e.1 = p then e.2 else 0) + splitSum s p := by
  simp [splitSum]

theorem debitAll_apply (s : List (Person × Int)) :
    ∀ (f : Person → Int) (p : Person), debitAll f s p = f p - splitSum s p := by
  induction s with
  | nil => intro f p; simp [debitAll, splitSum]
  | cons e s ih =>
    intro f p
    have hd : debitAll f (e :: s) = debitAll (fun q => if q = e.1 then f q - e.2 else f q) s :=
      rfl
    rw [hd, ih, splitSum_cons]
    by_cases hp : p = e.1
    · subst hp; simp; ring
    · have h' : ¬ (e.1 = p) := fun h' => hp h'.symm
      simp only [if_neg hp, if_neg h']
      ring

theorem mentioned_of_paid (t : Transaction) : t.paid_by ∈ mentioned t :=
  List.mem_cons_self _ _

theorem mentioned_of_split (t : Transaction) {e : Person × Int} (he : e ∈ t.split_by) :
    e.1 ∈ mentioned t := by
  rw [mentioned]
  exact List.mem_cons_of_mem _ (List.mem_map.mpr ⟨e, he, rfl⟩)

theorem applyTx_apply (f : Person → Int) (t : Transaction) (p : Person) :
    applyTx f t p = f p + contrib t p := by
  rw [applyTx, debitAll_apply, contrib]
  by_cases hp : p = t.paid_by
  · subst hp; simp; ring
  · have h' : ¬ (t.paid_by = p) := fun h' => hp h'.symm
    simp only [if_neg hp, if_neg h']
    ring

theorem balances_foldl (txs : List Transaction) :
    ∀ (f : Person → Int) (p : Person),
      txs.foldl applyTx f p = f p + (txs.map (fun t => contrib t p)).sum := by
  induction txs with
  | nil => intro f p; simp
  | cons t txs ih =>
    intro f p
    simp only [List.foldl_cons, List.map_cons, List.sum_cons]
    rw [ih, applyTx_apply]; ring

theorem balances_eq (txs : List Transaction) (p : Person) :
    balances txs p = (txs.map (fun t => contrib t p)).sum := by
  rw [balances, balances_foldl]; simp

theorem balances_cons (t : Transaction) (txs : List Transaction) (p : Person) :
    balances (t :: txs) p = contrib t p + balances txs p := by
  rw [balances_eq, balances_eq, List.map_cons, List.sum_cons]

theorem sum_map_single_hit (c : Int) (x : Person) :
    ∀ (L : List Person), L.Nodup → x ∈ L →
      (L.map (fun p => if x = p then c else 0)).sum = c := by
  intro L
  induction L with
  | nil => intro _ h; cases h
  | cons y L ih =>
    intro hnd hx
    simp only [List.map_cons, List.sum_cons]
    by_cases hxy : x = y
    · subst hxy
      have hx' : x ∉ L := (List.nodup_cons.mp hnd).1
      have : (L.map (fun p => if x = p then c else 0)).sum = 0 := by
        apply List.sum_eq_zero
        intro v hv
        obtain ⟨q, hq, rfl⟩ := List.mem_map.mp hv
        have : ¬ (x = q) := fun h' => hx' (h' ▸ hq)
        simp [this]
      simp [this]
    · have hxL : x ∈ L := by
        rcases List.mem_cons.mp hx with h | h
        · exact absurd h hxy
        · exact h
      rw [ih (List.nodup_cons.mp hnd).2 hxL]
      simp [hxy]

theorem sum_map_splitSum (s : List (Person × Int)) (L : List Person) (hnd : L.Nodup)
    (hsub : ∀ e ∈ s, e.1 ∈ L) :
    (L.map (fun p => splitSum s p)).sum = (s.map Prod.snd).sum := by
  induction s with
  | nil => simp [splitSum]
  | cons e s ih =>
    have hstep : ∀ p, splitSum (e :: s) p = (if e.1 = p then e.2 else 0) + splitSum s p :=
      fun p => splitSum_cons e s p
    calc (L.map (fun p => splitSum (e :: s) p)).sum
        = (L.map (fun p => (if e.1 = p then e.2 else 0) + splitSum s p)).sum := by
          rw [funext hstep]
      _ = (L.map (fun p => if e.1 = p then e.2 else 0)).sum
            + (L.map (fun p => splitSum s p)).sum := sum_map_add L _ _
      _ = e.2 + (s.map Prod.snd).sum := by
          rw [sum_map_single_hit e.2 e.1 L hnd (hsub e (List.mem_cons_self e s)),
            ih (fun x hx => hsub x (List.mem_cons_of_mem e hx))]
      _ = ((e :: s).map Prod.snd).sum := by simp

theorem contrib_sum_zero (t : Transaction) (L : List Person) (hnd : L.Nodup)
    (hsub : ∀ q ∈ mentioned t, q ∈ L) :
    (L.map (fun p => contrib t p)).sum = 0 := by
  have h1 : (L.map (fun p => if t.paid_by = p then totalOf t else 0)).sum = totalOf t :=
    sum_map_single_hit _ _ L hnd (hsub t.paid_by (mentioned_of_paid t))
  have h2 : (L.map (fun p => splitSum t.split_by p)).sum = (t.split_by.map Prod.snd).sum := by
    apply sum_map_splitSum _ _ hnd
    intro e he
    exact hsub e.1 (mentioned_of_split t he)
  calc (L.map (fun p => contrib t p)).sum
      = (L.map (fun p => if t.paid_by = p then totalOf t else 0)).sum
          - (L.map (fun p => splitSum t.split_by p)).sum := sum_map_sub L _ _
    _ = totalOf t - (t.split_by.map Prod.snd).sum := by rw [h1, h2]
    _ = 0 := by rw [totalOf]; ring

theorem sum_balances_zero_of_superset (txs : List Transaction) (L : List Person)
    (hnd : L.Nodup) (hsub : ∀ t ∈ txs, ∀ q ∈ mentioned t, q ∈ L) :
    (L.map (fun p => balances txs p)).sum = 0 := by
  induction txs with
  | nil =>
    apply List.sum_eq_zero
    intro v hv
    obtain ⟨q, _, rfl⟩ := List.mem_map.mp hv
    rfl
  | cons t txs ih =>
    have hc : ∀ p, balances (t :: txs) p = contrib t p + balances txs p :=
      balances_cons t txs
    calc (L.map (fun p => balances (t :: txs) p)).sum
        = (L.map (fun p => contrib t p + balances txs p)).sum := by
          congr 1; exact List.map_congr_left (fun p _ => hc p)
      _ = (L.map (fun p => contrib t p)).sum + (L.map (fun p => balances txs p)).sum :=
          sum_map_add L _ _
      _ = 0 := by
          rw [contrib_sum_zero t L hnd (hsub t (List.mem_cons_self t txs)),
            ih (fun u hu => hsub u (List.mem_cons_of_mem t hu))]
          simp

theorem mentioned_mem_participants {txs : List Transaction} {t : Transaction} {q : Person}
    (ht : t ∈ txs) (hq : q ∈ mentioned t) : q ∈ participantsList txs := by
  rw [participantsList, List.mem_dedup]
  induction txs with
  | nil => cases ht
  | cons u txs ih =>
    rw [mentionedAll, List.mem_append]
    rcases List.mem_cons.mp ht with h | h
    · left; exact h ▸ hq
    · right; exact ih h

theorem balances_eq_zero_of_not_mem {txs : List Transaction} {p : Person}
    (hp : p ∉ participantsList txs) : balances txs p = 0 := by
  rw [balances_eq]
  apply List.sum_eq_zero
  intro v hv
  obtain ⟨t, ht, rfl⟩ := List.mem_map.mp hv
  have hpm : p ∉ mentioned t := fun h => hp (mentioned_mem_participants ht h)
  rw [contrib]
  have h1 : ¬ (t.paid_by = p) := by
    intro h; exact hpm (by simp [mentioned, h])
  have h2 : splitSum t.split_by p = 0 := by
    apply List.sum_eq_zero
    intro v hv
    obtain ⟨e, he, rfl⟩ := List.mem_map.mp hv
    have h' : ¬ (e.1 = p) := by
      intro h
      exact hpm (h ▸ mentioned_of_split t he)
    simp [h']
  simp [h1, h2]

/-! ### Ordered-map insertion lemmas -/

theorem btInsert_mem (k : Int) (v : Person) :
    ∀ (l : List (Int × Person)) (x : Int × Person), x ∈ btInsert k v l → x = (k, v) ∨ x ∈ l := by
  intro l
  induction l with
  | nil =>
    intro x hx
    simp only [btInsert] at hx
    left
    simpa using hx
  | cons e rest ih =>
    intro x hx
    obtain ⟨k', v'⟩ := e
    rw [btInsert] at hx
    by_cases h1 : k < k'
    · rw [if_pos h1] at hx
      rcases List.mem_cons.mp hx with h | h
      · left; exact h
      · right; exact h
    · rw [if_neg h1] at hx
      by_cases h2 : k = k'
      · rw [if_pos h2] at hx
        rcases List.mem_cons.mp hx with h | h
        · left; exact h
        · right; exact List.mem_cons_of_mem _ h
      · rw [if_neg h2] at hx
        rcases List.mem_cons.mp hx with h | h
        · right; exact List.mem_cons.mpr (Or.inl h)
        · rcases ih x h with h' | h'
          · left; exact h'
          · right; exact List.mem_cons_of_mem _ h'

theorem btInsert_length (k : Int) (v : Person) :
    ∀ l : List (Int × Person), (btInsert k v l).length ≤ l.length + 1 := by
  intro l
  induction l with
  | nil => simp [btInsert]
  | cons e rest ih =>
    obtain ⟨k', v'⟩ := e
    rw [btInsert]
    by_cases h1 : k < k'
    · rw [if_pos h1]; simp
    · rw [if_neg h1]
      by_cases h2 : k = k'
      · rw [if_pos h2]; simp
      · rw [if_neg h2]
        simp only [List.length_cons]
        omega

theorem btInsert_sorted (k : Int) (v : Person) :
    ∀ l : List (Int × Person), l.Pairwise (fun a b => a.1 < b.1) →
      (btInsert k v l).Pairwise (fun a b => a.1 < b.1) := by
  intro l
  induction l with
  | nil => intro _; simp [btInsert]
  | cons e rest ih =>
    intro hl
    obtain ⟨k', v'⟩ := e
    obtain ⟨hfirst, hrest⟩ := List.pairwise_cons.mp hl
    rw [btInsert]
    by_cases h1 : k < k'
    · rw [if_pos h1]
      refine List.pairwise_cons.mpr ⟨?_, hl⟩
      intro x hx
      rcases List.mem_cons.mp hx with h | h
      · rw [h]; exact h1
      · exact lt_trans h1 (hfirst x h)
    · rw [if_neg h1]
      by_cases h2 : k = k'
      · rw [if_pos h2]
        refine List.pairwise_cons.mpr ⟨?_, hrest⟩
        intro x hx
        exact lt_of_eq_of_lt h2 (hfirst x hx)
      · rw [if_neg h2]
        have h3 : k' < k := by omega
        refine List.pairwise_cons.mpr ⟨?_, ih hrest⟩
        intro x hx
        rcases btInsert_mem k v rest x hx with h | h
        · rw [h]; exact h3
        · exact hfirst x h

theorem btInsert_perm_of_fresh (k : Int) (v : Person) :
    ∀ l : List (Int × Person), keyFresh k l = true → (btInsert k v l).Perm ((k, v) :: l) := by
  intro l
  induction l with
  | nil => intro _; simp [btInsert]
  | cons e rest ih =>
    intro hf
    obtain ⟨k', v'⟩ := e
    rw [keyFresh, List.all_cons, Bool.and_eq_true] at hf
    have hne : k' ≠ k := bne_iff_ne.mp hf.1
    rw [btInsert]
    by_cases h1 : k < k'
    · rw [if_pos h1]
    · rw [if_neg h1]
      have h2 : ¬ (k = k') := fun h => hne h.symm
      rw [if_neg h2]
      exact ((ih hf.2).cons _).trans (List.Perm.swap _ _ _)

theorem btInsert_person_mem (k : Int) (v : Person) (l : List (Int × Person)) (q : Person)
    (hq : q ∈ (btInsert k v l).map Prod.snd) : q = v ∨ q ∈ l.map Prod.snd := by
  obtain ⟨x, hx, rfl⟩ := List.mem_map.mp hq
  rcases btInsert_mem k v l x hx with h | h
  · left; rw [h]
  · right; exact List.mem_map.mpr ⟨x, h, rfl⟩

theorem btInsert_key_mem (k : Int) (v : Person) (l : List (Int × Person)) (a : Int)
    (ha : a ∈ (btInsert k v l).map Prod.fst) : a = k ∨ a ∈ l.map Prod.fst := by
  obtain ⟨x, hx, rfl⟩ := List.mem_map.mp ha
  rcases btInsert_mem k v l x hx with h | h
  · left; rw [h]
  · right; exact List.mem_map.mpr ⟨x, h, rfl⟩

theorem btInsert_persons_nodup (k : Int) (v : Person) :
    ∀ l : List (Int × Person), (l.map Prod.snd).Nodup → v ∉ l.map Prod.snd →
      ((btInsert k v l).map Prod.snd).Nodup := by
  intro l
  induction l with
  | nil => intro _ _; simp [btInsert]
  | cons e rest ih =>
    intro hnd hv
    obtain ⟨k', v'⟩ := e
    simp only [List.map_cons, List.nodup_cons] at hnd
    simp only [List.map_cons, List.mem_cons] at hv
    push_neg at hv
    rw [btInsert]
    by_cases h1 : k < k'
    · rw [if_pos h1]
      simp only [List.map_cons, List.nodup_cons, List.mem_cons]
      exact ⟨by push_neg; exact hv, hnd.1, hnd.2⟩
    · rw [if_neg h1]
      by_cases h2 : k = k'
      · rw [if_pos h2]
        simp only [List.map_cons, List.nodup_cons]
        exact ⟨hv.2, hnd.2⟩
      · rw [if_neg h2]
        simp only [List.map_cons, List.nodup_cons]
        refine ⟨?_, ih hnd.2 hv.2⟩
        intro hmem
        rcases btInsert_person_mem k v rest v' hmem with h | h
        · exact hv.1 h.symm
        · exact hnd.1 h

/-! ### Building the sorted balance map -/

theorem insertAll_sorted (txs : List Transaction) :
    ∀ (ps : List Person) (l : List (Int × Person)), l.Pairwise (fun a b => a.1 < b.1) →
      (insertAll txs ps l).Pairwise (fun a b => a.1 < b.1) := by
  intro ps
  induction ps with
  | nil => intro l h; exact h
  | cons p ps ih =>
    intro l h
    rw [insertAll]
    by_cases hb : balances txs p = 0
    · rw [if_pos hb]; exact ih l h
    · rw [if_neg hb]; exact ih _ (btInsert_sorted _ _ _ h)

theorem insertAll_keys_nonzero (txs : List Transaction) :
    ∀ (ps : List Person) (l : List (Int × Person)), (∀ e ∈ l, e.1 ≠ 0) →
      ∀ e ∈ insertAll txs ps l, e.1 ≠ 0 := by
  intro ps
  induction ps with
  | nil => intro l h; exact h
  | cons p ps ih =>
    intro l h
    rw [insertAll]
    by_cases hb : balances txs p = 0
    · rw [if_pos hb]; exact ih l h
    · rw [if_neg hb]
      apply ih
      intro e he
      rcases btInsert_mem _ _ l e he with h' | h'
      · rw [h']; exact hb
      · exact h e h'

theorem insertAll_persons_nodup (txs : List Transaction) :
    ∀ (ps : List Person) (l : List (Int × Person)), ps.Nodup → (l.map Prod.snd).Nodup →
      (∀ q ∈ l.map Prod.snd, q ∉ ps) → ((insertAll txs ps l).map Prod.snd).Nodup := by
  intro ps
  induction ps with
  | nil => intro l _ h _; exact h
  | cons p ps ih =>
    intro l hps hl hdisj
    obtain ⟨hp_not, hps'⟩ := List.nodup_cons.mp hps
    rw [insertAll]
    by_cases hb : balances txs p = 0
    · rw [if_pos hb]
      exact ih l hps' hl (fun q hq hmem => hdisj q hq (List.mem_cons_of_mem _ hmem))
    · rw [if_neg hb]
      apply ih _ hps'
      · exact btInsert_persons_nodup _ _ _ hl (fun hmem => hdisj p hmem (List.mem_cons_self _ _))
      · intro q hq hqps
        rcases btInsert_person_mem _ _ l q hq with h | h
        · exact hp_not (h ▸ hqps)
        · exact hdisj q h (List.mem_cons_of_mem _ hqps)

theorem insertAll_length (txs : List Transaction) :
    ∀ (ps : List Person) (l : List (Int × Person)),
      (insertAll txs ps l).length ≤ l.length + (ps.filter (fun p => balances txs p != 0)).length := by
  intro ps
  induction ps with
  | nil => intro l; simp [insertAll]
  | cons p ps ih =>
    intro l
    rw [insertAll, List.filter_cons]
    by_cases hb : balances txs p = 0
    · rw [if_pos hb]
      have hcond : (balances txs p != 0) = false := by simp [hb]
      rw [hcond]
      simpa using ih l
    · rw [if_neg hb]
      have hcond : (balances txs p != 0) = true := by simp [hb]
      rw [hcond]
      have h1 := ih (btInsert (balances txs p) p l)
      have h2 := btInsert_length (balances txs p) p l
      simp only [if_true, List.length_cons]
      omega

theorem nzEntries_cons_zero (txs : List Transaction) {p : Person} (ps : List Person)
    (hb : balances txs p = 0) : nzEntries txs (p :: ps) = nzEntries txs ps := by
  simp [nzEntries, hb]

theorem nzEntries_cons_nz (txs : List Transaction) {p : Person} (ps : List Person)
    (hb : ¬ balances txs p = 0) :
    nzEntries txs (p :: ps) = (balances txs p, p) :: nzEntries txs ps := by
  simp [nzEntries, hb]

theorem insertAll_perm_of_free (txs : List Transaction) :
    ∀ (ps : List Person) (l : List (Int × Person)), insertAllFree txs ps l = true →
      (insertAll txs ps l).Perm (l ++ nzEntries txs ps) := by
  intro ps
  induction ps with
  | nil => intro l _; simp [insertAll, nzEntries]
  | cons p ps ih =>
    intro l hfree
    rw [insertAllFree] at hfree
    rw [insertAll]
    by_cases hb : balances txs p = 0
    · rw [if_pos hb] at hfree ⊢
      rw [nzEntries_cons_zero txs ps hb]
      exact ih l hfree
    · rw [if_neg hb] at hfree ⊢
      rw [Bool.and_eq_true] at hfree
      rw [nzEntries_cons_nz txs ps hb]
      exact (ih _ hfree.2).trans
        (((btInsert_perm_of_fresh _ _ l hfree.1).append_right _).trans List.perm_middle.symm)

theorem sorted_balances_sorted (txs : List Transaction) :
    (sorted_balances txs).Pairwise (fun a b => a.1 < b.1) :=
  insertAll_sorted txs _ [] List.Pairwise.nil

theorem sorted_balances_keys_nonzero (txs : List Transaction) :
    ∀ e ∈ sorted_balances txs, e.1 ≠ 0 :=
  insertAll_keys_nonzero txs _ [] (by simp)

theorem participants_nodup (txs : List Transaction) : (participantsList txs).Nodup := by
  rw [participantsList]
  exact List.nodup_dedup _

theorem sorted_balances_persons_nodup (txs : List Transaction) :
    ((sorted_balances txs).map Prod.snd).Nodup :=
  insertAll_persons_nodup txs _ [] (participants_nodup txs) (by simp) (by simp)

theorem sorted_balances_length (txs : List Transaction) :
    (sorted_balances txs).length ≤ nonzeroCount txs := by
  have := insertAll_length txs (participantsList txs) []
  simpa [nonzeroCount] using this

theorem sorted_balances_perm_of_free (txs : List Transaction)
    (h : insertAllFree txs (participantsList txs) [] = true) :
    (sorted_balances txs).Perm (nzEntries txs (participantsList txs)) := by
  simpa using insertAll_perm_of_free txs (participantsList txs) [] h

/-! ### Reading balances out of entry lists -/

theorem balOf_cons (k : Int) (q : Person) (l : List (Int × Person)) (p : Person) :
    balOf ((k, q) :: l) p = (if q = p then k else 0) + balOf l p := by
  rw [balOf, balOf, List.filter_cons]
  by_cases h : q = p
  · simp [h]
  · simp [h]

theorem balOf_append (l1 l2 : List (Int × Person)) (p : Person) :
    balOf (l1 ++ l2) p = balOf l1 p + balOf l2 p := by
  simp [balOf]

theorem balOf_perm {l1 l2 : List (Int × Person)} (h : l1.Perm l2) (p : Person) :
    balOf l1 p = balOf l2 p := by
  rw [balOf, balOf]
  exact ((h.filter _).map _).sum_eq

theorem keySum_cons (e : Int × Person) (l : List (Int × Person)) :
    keySum (e :: l) = e.1 + keySum l := by
  simp [keySum]

theorem keySum_append (l1 l2 : List (Int × Person)) :
    keySum (l1 ++ l2) = keySum l1 + keySum l2 := by
  simp [keySum]

theorem keySum_perm {l1 l2 : List (Int × Person)} (h : l1.Perm l2) :
    keySum l1 = keySum l2 := by
  rw [keySum, keySum]
  exact (h.map _).sum_eq

theorem balOf_nzEntries (txs : List Transaction) :
    ∀ (ps : List Person), ps.Nodup → ∀ p,
      balOf (nzEntries txs ps) p = if p ∈ ps then balances txs p else 0 := by
  intro ps
  induction ps with
  | nil => intro _ p; simp [nzEntries, balOf]
  | cons q ps ih =>
    intro hnd p
    obtain ⟨hq, hnd'⟩ := List.nodup_cons.mp hnd
    by_cases hb : balances txs q = 0
    · rw [nzEntries_cons_zero txs ps hb, ih hnd' p]
      by_cases hpq : p = q
      · subst hpq
        simp [hq, hb]
      · simp [List.mem_cons, hpq]
    · rw [nzEntries_cons_nz txs ps hb, balOf_cons, ih hnd' p]
      by_cases hpq : p = q
      · subst hpq
        simp [hq]
      · have h' : ¬ (q = p) := fun h => hpq h.symm
        simp [h', hpq, List.mem_cons]

theorem keySum_nzEntries (txs : List Transaction) :
    ∀ ps : List Person, keySum (nzEntries txs ps) = (ps.map (fun p => balances txs p)).sum := by
  intro ps
  induction ps with
  | nil => simp [nzEntries, keySum]
  | cons q ps ih =>
    by_cases hb : balances txs q = 0
    · rw [nzEntries_cons_zero txs ps hb]
      simp [ih, hb]
    · rw [nzEntries_cons_nz txs ps hb, keySum_cons]
      simp [ih]

theorem keySum_sorted_balances_of_free (txs : List Transaction)
    (h : insertAllFree txs (participantsList txs) [] = true) :
    keySum (sorted_balances txs) = 0 := by
  rw [keySum_perm (sorted_balances_perm_of_free txs h), keySum_nzEntries]
  exact sum_balances_zero_of_superset txs _ (participants_nodup txs)
    (fun t ht q hq => mentioned_mem_participants ht hq)

theorem balOf_sorted_balances_of_free (txs : List Transaction)
    (h : insertAllFree txs (participantsList txs) [] = true) (p : Person) :
    balOf (sorted_balances txs) p = balances txs p := by
  rw [balOf_perm (sorted_balances_perm_of_free txs h) p,
    balOf_nzEntries txs (participantsList txs) (participants_nodup txs) p]
  by_cases hp : p ∈ participantsList txs
  · simp [hp]
  · simp [hp, balances_eq_zero_of_not_mem hp]

/-! ### One settlement step -/

theorem list_sum_neg : ∀ ks : List Int, (∀ x ∈ ks, x < 0) → ks ≠ [] → ks.sum < 0 := by
  intro ks
  induction ks with
  | nil => intro _ h; exact absurd rfl h
  | cons a ks ih =>
    intro h _
    rcases ks with _ | ⟨b, ks'⟩
    · simpa using h a (by simp)
    · have h1 : a < 0 := h a (by simp)
      have h2 : (b :: ks').sum < 0 := ih (fun x hx => h x (List.mem_cons_of_mem _ hx)) (by simp)
      rw [List.sum_cons]
      omega

theorem settleNext_length (m : Int) (pm : Person) (M : Int) (pM : Person)
    (mid : List (Int × Person)) : (settleNext m pm M pM mid).length ≤ mid.length + 1 := by
  rw [settleNext]
  split_ifs
  · exact btInsert_length _ _ _
  · exact btInsert_length _ _ _
  · omega

theorem settleNext_sorted (m : Int) (pm : Person) (M : Int) (pM : Person)
    (mid : List (Int × Person)) (h : mid.Pairwise (fun a b => a.1 < b.1)) :
    (settleNext m pm M pM mid).Pairwise (fun a b => a.1 < b.1) := by
  rw [settleNext]
  split_ifs
  · exact btInsert_sorted _ _ _ h
  · exact btInsert_sorted _ _ _ h
  · exact h

theorem settleNext_persons_nodup (m : Int) (pm : Person) (M : Int) (pM : Person)
    (mid : List (Int × Person)) (hnd : (mid.map Prod.snd).Nodup)
    (hpm : pm ∉ mid.map Prod.snd) (hpM : pM ∉ mid.map Prod.snd) :
    ((settleNext m pm M pM mid).map Prod.snd).Nodup := by
  rw [settleNext]
  split_ifs
  · exact btInsert_persons_nodup _ _ _ hnd hpm
  · exact btInsert_persons_nodup _ _ _ hnd hpM
  · exact hnd

theorem settleNext_keys_nonzero {m M : Int} {pm pM : Person} {mid : List (Int × Person)}
    (hm : m ≠ 0) (hM : M ≠ 0) (hmid : ∀ x ∈ mid, x.1 ≠ 0) :
    ∀ x ∈ settleNext m pm M pM mid, x.1 ≠ 0 := by
  rw [settleNext]
  have hres : |m| ≠ |M| → m + M ≠ 0 := by
    intro hne hc
    have hMm : M = -m := by omega
    rw [hMm, abs_neg] at hne
    exact hne rfl
  split_ifs with h1 h2
  · intro x hx
    rcases btInsert_mem _ _ _ x hx with h | h
    · rw [h]; exact hres (by omega)
    · exact hmid x h
  · intro x hx
    rcases btInsert_mem _ _ _ x hx with h | h
    · rw [h]; exact hres (by omega)
    · exact hmid x h
  · exact hmid

theorem settleNext_keySum {m M : Int} (pm pM : Person) {mid : List (Int × Person)}
    (hm_neg : m < 0) (hM_pos : 0 < M) (hfree : settleNextFree m M mid = true)
    (hsum : m + (keySum mid + M) = 0) :
    keySum (settleNext m pm M pM mid) = 0 := by
  have habs_m : |m| = -m := abs_of_neg hm_neg
  have habs_M : |M| = M := abs_of_pos hM_pos
  rw [settleNextFree] at hfree
  rw [settleNext]
  by_cases hb1 : |m| > |M|
  · rw [if_pos hb1] at hfree ⊢
    rw [keySum_perm (btInsert_perm_of_fresh _ _ _ hfree), keySum_cons]
    omega
  · rw [if_neg hb1] at hfree ⊢
    by_cases hb2 : |M| > |m|
    · rw [if_pos hb2] at hfree ⊢
      rw [keySum_perm (btInsert_perm_of_fresh _ _ _ hfree), keySum_cons]
      omega
    · rw [if_neg hb2]
      rw [habs_m, habs_M] at hb1 hb2
      omega

theorem settle_step_balance (m M : Int) (pm pM : Person) (mid : List (Int × Person))
    (hm_neg : m < 0) (hM_pos : 0 < M) (hpm_pM : pm ≠ pM)
    (hfree : settleNextFree m M mid = true) (q : Person) :
    ((if pm = q then m else 0) + balOf mid q + (if pM = q then M else 0))
        + (if q = pm then min |m| |M| else 0) - (if q = pM then min |m| |M| else 0)
      = balOf (settleNext m pm M pM mid) q := by
  have habs_m : |m| = -m := abs_of_neg hm_neg
  have habs_M : |M| = M := abs_of_pos hM_pos
  rw [settleNextFree] at hfree
  rw [settleNext]
  by_cases hb1 : |m| > |M|
  · rw [if_pos hb1] at hfree ⊢
    have ha : min |m| |M| = M := by rw [min_eq_right (le_of_lt hb1), habs_M]
    rw [balOf_perm (btInsert_perm_of_fresh _ _ _ hfree) q, balOf_cons, ha]
    by_cases hq1 : pm = q
    · have hq2 : ¬ (pM = q) := fun h => hpm_pM (by rw [hq1, ← h])
      have hq1' : q = pm := hq1.symm
      have hq2' : ¬ (q = pM) := fun h => hq2 h.symm
      rw [if_pos hq1, if_neg hq2, if_pos hq1', if_neg hq2', if_pos hq1]
      ring
    · have hq1' : ¬ (q = pm) := fun h => hq1 h.symm
      by_cases hq2 : pM = q
      · rw [if_neg hq1, if_pos hq2, if_neg hq1', if_pos hq2.symm, if_neg hq1]
        ring
      · have hq2' : ¬ (q = pM) := fun h => hq2 h.symm
        rw [if_neg hq1, if_neg hq2, if_neg hq1', if_neg hq2', if_neg hq1]
        ring
  · rw [if_neg hb1] at hfree ⊢
    by_cases hb2 : |M| > |m|
    · rw [if_pos hb2] at hfree ⊢
      have ha : min |m| |M| = -m := by rw [min_eq_left (le_of_lt hb2), habs_m]
      rw [balOf_perm (btInsert_perm_of_fresh _ _ _ hfree) q, balOf_cons, ha]
      by_cases hq1 : pm = q
      · have hq2 : ¬ (pM = q) := fun h => hpm_pM (by rw [hq1, ← h])
        have hq1' : q = pm := hq1.symm
        have hq2' : ¬ (q = pM) := fun h => hq2 h.symm
        rw [if_pos hq1, if_neg hq2, if_pos hq1', if_neg hq2', if_neg hq2]
        ring
      · have hq1' : ¬ (q = pm) := fun h => hq1 h.symm
        by_cases hq2 : pM = q
        · rw [if_neg hq1, if_pos hq2, if_neg hq1', if_pos hq2.symm, if_pos hq2]
          ring
        · have hq2' : ¬ (q = pM) := fun h => hq2 h.symm
          rw [if_neg hq1, if_neg hq2, if_neg hq1', if_neg hq2', if_neg hq2]
          ring
    · rw [if_neg hb2]
      have hMm : M = -m := by
        rw [habs_m, habs_M] at hb1 hb2
        omega
      have ha : min |m| |M| = -m := by rw [habs_m, habs_M, hMm, min_self]
      rw [ha]
      by_cases hq1 : pm = q
      · have hq2 : ¬ (pM = q) := fun h => hpm_pM (by rw [hq1, ← h])
        have hq1' : q = pm := hq1.symm
        have hq2' : ¬ (q = pM) := fun h => hq2 h.symm
        rw [if_pos hq1, if_neg hq2, if_pos hq1', if_neg hq2']
        ring
      · have hq1' : ¬ (q = pm) := fun h => hq1 h.symm
        by_cases hq2 : pM = q
        · rw [if_neg hq1, if_pos hq2, if_neg hq1', if_pos hq2.symm]
          rw [hMm]
          ring
        · have hq2' : ¬ (q = pM) := fun h => hq2 h.symm
          rw [if_neg hq1, if_neg hq2, if_neg hq1', if_neg hq2']
          ring

/-! ### Structural facts about the settlement loop -/

theorem applyDebts_nil (f : Person → Int) : applyDebts f [] = f := rfl

theorem applyDebts_cons (f : Person → Int) (d : Debt) (ds : List Debt) :
    applyDebts f (d :: ds) = applyDebts (applyDebt f d) ds := rfl

theorem applyDebts_congr : ∀ (ds : List Debt) (f g : Person → Int),
    (∀ p, f p = g p) → ∀ p, applyDebts f ds p = applyDebts g ds p := by
  intro ds
  induction ds with
  | nil => intro f g h p; exact h p
  | cons d ds ih =>
    intro f g h p
    rw [applyDebts_cons, applyDebts_cons]
    apply ih
    intro u
    rw [applyDebt, applyDebt, h u]

theorem settleLoopFuel_short : ∀ (fuel : Nat) (l : List (Int × Person)),
    l.length ≤ 1 → settleLoopFuel fuel l = [] := by
  intro fuel l hl
  match fuel, l with
  | 0, _ => rfl
  | _ + 1, [] => rfl
  | _ + 1, [_] => rfl
  | _ + 1, _ :: _ :: _ =>
    exfalso
    simp only [List.length_cons] at hl
    omega

theorem settleLoopFuel_length : ∀ (fuel : Nat) (l : List (Int × Person)),
    (settleLoopFuel fuel l).length ≤ l.length - 1 := by
  intro fuel
  induction fuel with
  | zero => intro l; simp [settleLoopFuel]
  | succ f ih =>
    intro l
    rcases l with _ | ⟨⟨m, pm⟩, _ | ⟨e, rest⟩⟩
    · simp [settleLoopFuel]
    · simp [settleLoopFuel]
    · rw [settleLoopFuel]
      simp only [List.length_cons]
      have h1 := ih (settleNext m pm ((e :: rest).getLast (List.cons_ne_nil e rest)).1
        ((e :: rest).getLast (List.cons_ne_nil e rest)).2 ((e :: rest).dropLast))
      have h2 := settleNext_length m pm ((e :: rest).getLast (List.cons_ne_nil e rest)).1
        ((e :: rest).getLast (List.cons_ne_nil e rest)).2 ((e :: rest).dropLast)
      have h3 : ((e :: rest).dropLast).length = rest.length := by simp
      omega

theorem settleLoopFuel_congr : ∀ (f1 f2 : Nat) (l : List (Int × Person)),
    l.length ≤ f1 + 1 → l.length ≤ f2 + 1 → settleLoopFuel f1 l = settleLoopFuel f2 l := by
  intro f1
  induction f1 with
  | zero =>
    intro f2 l h1 _
    rw [settleLoopFuel_short 0 l h1, settleLoopFuel_short f2 l h1]
  | succ f ih =>
    intro f2 l h1 h2
    rcases l with _ | ⟨⟨m, pm⟩, _ | ⟨e, rest⟩⟩
    · rw [settleLoopFuel_short _ _ (by simp), settleLoopFuel_short _ _ (by simp)]
    · rw [settleLoopFuel_short _ _ (by simp), settleLoopFuel_short _ _ (by simp)]
    · simp only [List.length_cons] at h1 h2
      obtain ⟨f2', rfl⟩ : ∃ f2', f2 = f2' + 1 := by
        cases f2 with
        | zero => exfalso; omega
        | succ k => exact ⟨k, rfl⟩
      rw [settleLoopFuel, settleLoopFuel]
      congr 1
      apply ih
      · have hn := settleNext_length m pm ((e :: rest).getLast (List.cons_ne_nil e rest)).1
          ((e :: rest).getLast (List.cons_ne_nil e rest)).2 ((e :: rest).dropLast)
        have h3 : ((e :: rest).dropLast).length = rest.length := by simp
        omega
      · have hn := settleNext_length m pm ((e :: rest).getLast (List.cons_ne_nil e rest)).1
          ((e :: rest).getLast (List.cons_ne_nil e rest)).2 ((e :: rest).dropLast)
        have h3 : ((e :: rest).dropLast).length = rest.length := by simp
        omega

theorem settleLoopFuel_amounts_pos : ∀ (fuel : Nat) (l : List (Int × Person)),
    (∀ x ∈ l, x.1 ≠ 0) → ∀ d ∈ settleLoopFuel fuel l, 0 < d.amount := by
  intro fuel
  induction fuel with
  | zero => intro l _ d hd; simp [settleLoopFuel] at hd
  | succ f ih =>
    intro l hl d hd
    rcases l with _ | ⟨⟨m, pm⟩, _ | ⟨e, rest⟩⟩
    · simp [settleLoopFuel] at hd
    · simp [settleLoopFuel] at hd
    · obtain ⟨M, pM, hML⟩ : ∃ M pM, (e :: rest).getLast (List.cons_ne_nil e rest) = (M, pM) :=
        ⟨_, _, rfl⟩
      rw [settleLoopFuel] at hd
      simp only [hML] at hd
      have hm_ne : m ≠ 0 := hl (m, pm) (List.mem_cons_self _ _)
      have hM_mem : (M, pM) ∈ e :: rest := by
        rw [← hML]; exact List.getLast_mem _
      have hM_ne : M ≠ 0 := hl (M, pM) (List.mem_cons_of_mem _ hM_mem)
      rcases List.mem_cons.mp hd with h | h
      · rw [h]
        exact lt_min (abs_pos.mpr hm_ne) (abs_pos.mpr hM_ne)
      · refine ih (settleNext m pm M pM ((e :: rest).dropLast)) ?_ d h
        apply settleNext_keys_nonzero hm_ne hM_ne
        intro x hx
        exact hl x (List.mem_cons_of_mem _ ((List.dropLast_sublist (e :: rest)).subset hx))

theorem settleLoopFuel_no_self : ∀ (fuel : Nat) (l : List (Int × Person)),
    (l.map Prod.snd).Nodup → ∀ d ∈ settleLoopFuel fuel l, d.owing ≠ d.owed := by
  intro fuel
  induction fuel with
  | zero => intro l _ d hd; simp [settleLoopFuel] at hd
  | succ f ih =>
    intro l hnd d hd
    rcases l with _ | ⟨⟨m, pm⟩, _ | ⟨e, rest⟩⟩
    · simp [settleLoopFuel] at hd
    · simp [settleLoopFuel] at hd
    · obtain ⟨M, pM, hML⟩ : ∃ M pM, (e :: rest).getLast (List.cons_ne_nil e rest) = (M, pM) :=
        ⟨_, _, rfl⟩
      have hsplit : (e :: rest).dropLast ++ [(M, pM)] = e :: rest := by
        rw [← hML]; exact List.dropLast_append_getLast _
      rw [settleLoopFuel] at hd
      simp only [hML] at hd
      have hnd1 : pm ∉ ((e :: rest).map Prod.snd) ∧ ((e :: rest).map Prod.snd).Nodup := by
        simpa using hnd
      have hpersons : ((e :: rest).dropLast).map Prod.snd ++ [pM] = (e :: rest).map Prod.snd := by
        conv_rhs => rw [← hsplit]
        simp
      have hA : (((e :: rest).dropLast).map Prod.snd ++ [pM]).Nodup := by
        rw [hpersons]; exact hnd1.2
      obtain ⟨hmidnd, _, hdisj⟩ := List.nodup_append.mp hA
      have hpM_mid : pM ∉ ((e :: rest).dropLast).map Prod.snd := fun hmem =>
        hdisj hmem (by simp)
      have hpm_ne : pm ≠ pM := by
        intro hcontra
        apply hnd1.1
        rw [hcontra, ← hpersons]
        exact List.mem_append_right _ (by simp)
      have hpm_mid : pm ∉ ((e :: rest).dropLast).map Prod.snd := by
        intro hmem
        apply hnd1.1
        rw [← hpersons]
        exact List.mem_append_left _ hmem
      rcases List.mem_cons.mp hd with h | h
      · rw [h]; exact hpm_ne
      · refine ih (settleNext m pm M pM ((e :: rest).dropLast)) ?_ d h
        exact settleNext_persons_nodup _ _ _ _ _ hmidnd hpm_mid hpM_mid

theorem settleLoop_zero : ∀ (fuel : Nat) (l : List (Int × Person)),
    l.length ≤ fuel + 1 →
    l.Pairwise (fun a b => a.1 < b.1) →
    (∀ x ∈ l, x.1 ≠ 0) →
    keySum l = 0 →
    (l.map Prod.snd).Nodup →
    settleLoopFree fuel l = true →
    ∀ p, applyDebts (balOf l) (settleLoopFuel fuel l) p = 0 := by
  intro fuel
  induction fuel with
  | zero =>
    intro l hlen _ hnz hsum _ _ p
    rcases l with _ | ⟨⟨k, u⟩, _ | ⟨y, l''⟩⟩
    · simp [settleLoopFuel, applyDebts_nil, balOf]
    · exfalso
      have hk := hnz (k, u) (List.mem_cons_self _ _)
      have hk0 : keySum [(k, u)] = k := by simp [keySum]
      rw [hk0] at hsum
      exact hk hsum
    · exfalso
      simp only [List.length_cons] at hlen
      omega
  | succ f ih =>
    intro l hlen hsort hnz hsum hnd hfree p
    rcases l with _ | ⟨⟨m, pm⟩, _ | ⟨e, rest⟩⟩
    · simp [settleLoopFuel, applyDebts_nil, balOf]
    · exfalso
      have hk := hnz (m, pm) (List.mem_cons_self _ _)
      have hk0 : keySum [(m, pm)] = m := by simp [keySum]
      rw [hk0] at hsum
      exact hk hsum
    · obtain ⟨M, pM, hML⟩ : ∃ M pM, (e :: rest).getLast (List.cons_ne_nil e rest) = (M, pM) :=
        ⟨_, _, rfl⟩
      have hsplit : (e :: rest).dropLast ++ [(M, pM)] = e :: rest := by
        rw [← hML]; exact List.dropLast_append_getLast _
      have hM_mem : (M, pM) ∈ e :: rest := by
        rw [← hML]; exact List.getLast_mem _
      have hm_ne : m ≠ 0 := hnz (m, pm) (List.mem_cons_self _ _)
      have hM_ne : M ≠ 0 := hnz (M, pM) (List.mem_cons_of_mem _ hM_mem)
      obtain ⟨hfirst, hsort'⟩ := List.pairwise_cons.mp hsort
      have hsplit_pair : ((e :: rest).dropLast ++ [(M, pM)]).Pairwise
          (fun a b => a.1 < b.1) := by
        rw [hsplit]; exact hsort'
      obtain ⟨hmid_sorted, _, hmid_last⟩ := List.pairwise_append.mp hsplit_pair
      have hmid_lt : ∀ x ∈ (e :: rest).dropLast, x.1 < M := by
        intro x hx
        exact hmid_last x hx (M, pM) (by simp)
      have hmid_sub : ∀ x ∈ (e :: rest).dropLast, x ∈ e :: rest :=
        fun x hx => (List.dropLast_sublist (e :: rest)).subset hx
      have hmid_nz : ∀ x ∈ (e :: rest).dropLast, x.1 ≠ 0 :=
        fun x hx => hnz x (List.mem_cons_of_mem _ (hmid_sub x hx))
      -- persons
      have hnd1 : pm ∉ ((e :: rest).map Prod.snd) ∧ ((e :: rest).map Prod.snd).Nodup := by
        simpa using hnd
      have hpersons : ((e :: rest).dropLast).map Prod.snd ++ [pM] = (e :: rest).map Prod.snd := by
        conv_rhs => rw [← hsplit]
        simp
      have hA : (((e :: rest).dropLast).map Prod.snd ++ [pM]).Nodup := by
        rw [hpersons]; exact hnd1.2
      obtain ⟨hmidnd, _, hdisj⟩ := List.nodup_append.mp hA
      have hpM_mid : pM ∉ ((e :: rest).dropLast).map Prod.snd := fun hmem =>
        hdisj hmem (by simp)
      have hpm_pM : pm ≠ pM := by
        intro hcontra
        apply hnd1.1
        rw [hcontra, ← hpersons]
        exact List.mem_append_right _ (by simp)
      have hpm_mid : pm ∉ ((e :: rest).dropLast).map Prod.snd := by
        intro hmem
        apply hnd1.1
        rw [← hpersons]
        exact List.mem_append_left _ hmem
      -- sums
      have hsum_dec : m + (keySum ((e :: rest).dropLast) + M) = 0 := by
        have h1 : keySum ((m, pm) :: e :: rest) = m + keySum (e :: rest) := keySum_cons _ _
        have h2 : keySum (e :: rest) = keySum ((e :: rest).dropLast) + M := by
          conv_lhs => rw [← hsplit]
          rw [keySum_append]
          simp [keySum]
        rw [h1, h2] at hsum
        omega
      -- signs
      have hm_neg : m < 0 := by
        by_contra hc
        push_neg at hc
        have hpos : ∀ x ∈ ((m, pm) :: e :: rest).map Prod.fst, 0 < x := by
          intro x hx
          rcases List.mem_map.mp hx with ⟨y, hy, rfl⟩
          rcases List.mem_cons.mp hy with h | h
          · rw [h]
            omega
          · have := hfirst y h
            omega
        have hlt := List.sum_pos _ hpos (by simp)
        have hks : keySum ((m, pm) :: e :: rest) = (((m, pm) :: e :: rest).map Prod.fst).sum :=
          rfl
        rw [hks] at hsum
        omega
      have hM_pos : 0 < M := by
        by_contra hc
        push_neg at hc
        have hneg : ∀ x ∈ ((m, pm) :: e :: rest).map Prod.fst, x < 0 := by
          intro x hx
          rcases List.mem_map.mp hx with ⟨y, hy, rfl⟩
          rcases List.mem_cons.mp hy with h | h
          · rw [h]
            exact hm_neg
          · have hy2 : y ∈ (e :: rest).dropLast ++ [(M, pM)] := by rw [hsplit]; exact h
            rcases List.mem_append.mp hy2 with h' | h'
            · have := hmid_lt y h'
              omega
            · have : y = (M, pM) := by simpa using h'
              rw [this]
              omega
        have hlt := list_sum_neg _ hneg (by simp)
        have hks : keySum ((m, pm) :: e :: rest) = (((m, pm) :: e :: rest).map Prod.fst).sum :=
          rfl
        rw [hks] at hsum
        omega
      -- unfold the loop and the freedom flag
      have hfree2 : settleNextFree m M ((e :: rest).dropLast) = true ∧
          settleLoopFree f (settleNext m pm M pM ((e :: rest).dropLast)) = true := by
        rw [settleLoopFree] at hfree
        simp only [hML, Bool.and_eq_true] at hfree
        exact hfree
      -- balance decomposition of the whole list
      have hbal_l : ∀ q, balOf ((m, pm) :: e :: rest) q =
          (if pm = q then m else 0) + balOf ((e :: rest).dropLast) q
            + (if pM = q then M else 0) := by
        intro q
        rw [balOf_cons]
        have h2 : balOf (e :: rest) q =
            balOf ((e :: rest).dropLast) q + (if pM = q then M else 0) := by
          conv_lhs => rw [← hsplit]
          rw [balOf_append, balOf_cons]
          have hnil : balOf ([] : List (Int × Person)) q = 0 := rfl
          rw [hnil]
          ring
        rw [h2]
        ring
      -- one step of the loop
      have hstep : ∀ q, applyDebt (balOf ((m, pm) :: e :: rest))
          (Debt.mk (min |m| |M|) pm pM) q =
          balOf (settleNext m pm M pM ((e :: rest).dropLast)) q := by
        intro q
        simp only [applyDebt]
        rw [hbal_l q]
        exact settle_step_balance m M pm pM _ hm_neg hM_pos hpm_pM hfree2.1 q
      rw [settleLoopFuel]
      simp only [hML]
      rw [applyDebts_cons]
      have hcong := applyDebts_congr
        (settleLoopFuel f (settleNext m pm M pM ((e :: rest).dropLast))) _ _ hstep p
      rw [hcong]
      apply ih
      · have hn := settleNext_length m pm M pM ((e :: rest).dropLast)
        have h3 : ((e :: rest).dropLast).length = rest.length := by simp
        simp only [List.length_cons] at hlen
        omega
      · exact settleNext_sorted _ _ _ _ _ hmid_sorted
      · exact settleNext_keys_nonzero hm_ne hM_ne hmid_nz
      · exact settleNext_keySum pm pM hm_neg hM_pos hfree2.1 hsum_dec
      · exact settleNext_persons_nodup _ _ _ _ _ hmidnd hpm_mid hpM_mid
      · exact hfree2.2

theorem settleLoopChecked_eq : ∀ (fuel : Nat) (l : List (Int × Person)),
    (∀ x ∈ l, x.1 ≠ 0) → settleLoopChecked fuel l = some (settleLoopFuel fuel l) := by
  intro fuel
  induction fuel with
  | zero => intro l _; rfl
  | succ f ih =>
    intro l hl
    have hany : l.any (fun x => x.1 == 0) = false := by
      rw [List.any_eq_false]
      intro x hx
      simpa using hl x hx
    rcases l with _ | ⟨⟨m, pm⟩, _ | ⟨e, rest⟩⟩
    · rw [settleLoopChecked, settleLoopFuel_short _ _ (by simp)]
      simp
    · rw [settleLoopChecked, settleLoopFuel_short _ _ (by simp)]
      rw [hany]
      simp
    · obtain ⟨M, pM, hML⟩ : ∃ M pM, (e :: rest).getLast (List.cons_ne_nil e rest) = (M, pM) :=
        ⟨_, _, rfl⟩
      have hgl : (e :: rest).getLast? = some (M, pM) := by
        rw [List.getLast?_eq_getLast_of_ne_nil (List.cons_ne_nil e rest), hML]
      have hm_ne : m ≠ 0 := hl (m, pm) (List.mem_cons_self _ _)
      have hM_mem : (M, pM) ∈ e :: rest := by
        rw [← hML]; exact List.getLast_mem _
      have hM_ne : M ≠ 0 := hl (M, pM) (List.mem_cons_of_mem _ hM_mem)
      have hnext_nz : ∀ x ∈ settleNext m pm M pM ((e :: rest).dropLast), x.1 ≠ 0 := by
        apply settleNext_keys_nonzero hm_ne hM_ne
        intro x hx
        exact hl x (List.mem_cons_of_mem _ ((List.dropLast_sublist (e :: rest)).subset hx))
      rw [settleLoopChecked, hany]
      have hlen : ¬ (((m, pm) :: e :: rest).length ≤ 1) := by
        simp only [List.length_cons]
        omega
      rw [if_neg Bool.false_ne_true, if_neg hlen]
      simp only [List.head?_cons, List.tail_cons, hgl, Option.some_bind]
      rw [ih _ hnext_nz]
      simp only [Option.map_some']
      conv_rhs => rw [settleLoopFuel]
      simp only [hML]

/-! ### Claim theorems -/

/-- C2: for every list of transactions, the sum over all participants of the net balance
computed by the aggregation phase (total credited as payer minus total debited as a
sharer) is exactly 0. -/
theorem balances_sum_zero (txs : List Transaction) :
    ((participantsList txs).map (fun p => balances txs p)).sum = 0 :=
  sum_balances_zero_of_superset txs _ (participants_nodup txs)
    (fun t ht q hq => mentioned_mem_participants ht hq)

/-- C1 counterexample: for `collideTxs` (A pays 10 owed by B; C pays 10 owed by D), two
participants share the balance +10 and two share -10, the amount-keyed map silently
overwrites the colliding entries, and after applying every emitted debt participant A
is left with balance 10, not 0. So the claim fails as stated for some transaction list. -/
theorem conservation_fails_on_collision :
    applyDebts (balances collideTxs) (simplify collideTxs) "A" ≠ 0 := by
  decide

/-- C1 (amended): for every list of transactions on which the run of `simplify` never
overwrites an existing amount key (`collisionFree`, in particular whenever all
intermediate nonzero balances are pairwise distinct), applying every emitted Debt to
the aggregated net balances — the debtor's balance rises by the amount it pays, the
creditor's falls by the amount it receives — leaves every participant's balance
exactly 0. -/
theorem conservation_of_collision_free (txs : List Transaction)
    (h : collisionFree txs = true) (p : Person) :
    applyDebts (balances txs) (simplify txs) p = 0 := by
  rw [collisionFree, Bool.and_eq_true] at h
  have hloop := settleLoop_zero (sorted_balances txs).length (sorted_balances txs)
    (by omega) (sorted_balances_sorted txs) (sorted_balances_keys_nonzero txs)
    (keySum_sorted_balances_of_free txs h.1) (sorted_balances_persons_nodup txs) h.2 p
  rw [simplify, settleLoop]
  have hcong := applyDebts_congr
    (settleLoopFuel (sorted_balances txs).length (sorted_balances txs))
    (balances txs) (balOf (sorted_balances txs))
    (fun q => (balOf_sorted_balances_of_free txs h.1 q).symm) p
  rw [hcong]
  exact hloop

/-- Witness for C1 (amended) at the single-pair scenario. -/
theorem conservation_of_collision_free_witness :
    applyDebts (balances pairTxs) (simplify pairTxs) "B" = 0 :=
  conservation_of_collision_free pairTxs (by decide) "B"

/-- C3: for every list of transactions, the number of Debts emitted by `simplify` is at
most the number of participants with nonzero net balance minus one, and no debt is
emitted when fewer than two nonzero balances exist. -/
theorem debt_count_bound (txs : List Transaction) :
    (simplify txs).length ≤ nonzeroCount txs - 1 ∧
      (nonzeroCount txs < 2 → simplify txs = []) := by
  constructor
  · have h1 := settleLoopFuel_length (sorted_balances txs).length (sorted_balances txs)
    have h2 := sorted_balances_length txs
    rw [simplify, settleLoop]
    omega
  · intro h
    have h2 := sorted_balances_length txs
    rw [simplify, settleLoop]
    apply settleLoopFuel_short
    omega

/-- Witness for C3: the five-transaction example respects the bound, and a transaction
set with no nonzero balance yields no debt. -/
theorem debt_count_bound_witness :
    (simplify exTxs).length ≤ nonzeroCount exTxs - 1 ∧ simplify selfTxs = [] :=
  ⟨(debt_count_bound exTxs).1, (debt_count_bound selfTxs).2 (by decide)⟩

/-- C4: on the concrete five-transaction input of the source's test, `simplify` returns
exactly the debt sequence `[Debt(175, B, C), Debt(40, A, C), Debt(15, E, C),
Debt(10, E, D)]`. -/
theorem simplify_reference_example :
    simplify exTxs =
      [⟨175, "B", "C"⟩, ⟨40, "A", "C"⟩, ⟨15, "E", "C"⟩, ⟨10, "E", "D"⟩] := by
  decide

/-- C5: for every list of transactions, every Debt emitted by `simplify` has a strictly
positive amount. -/
theorem debt_amounts_positive (txs : List Transaction) :
    ∀ d ∈ simplify txs, 0 < d.amount := by
  intro d hd
  rw [simplify, settleLoop] at hd
  exact settleLoopFuel_amounts_pos _ _ (sorted_balances_keys_nonzero txs) d hd

/-- Witness for C5 at the single-pair scenario. -/
theorem debt_amounts_positive_witness : 0 < (Debt.mk 50 "B" "A").amount :=
  debt_amounts_positive pairTxs (Debt.mk 50 "B" "A") (by decide)

/-- C6: for every list of transactions, no Debt emitted by `simplify` has its owing
participant equal to its owed participant. -/
theorem no_self_debt (txs : List Transaction) :
    ∀ d ∈ simplify txs, d.owing ≠ d.owed := by
  intro d hd
  rw [simplify, settleLoop] at hd
  exact settleLoopFuel_no_self _ _ (sorted_balances_persons_nodup txs) d hd

/-- Witness for C6 at the single-pair scenario. -/
theorem no_self_debt_witness : (Debt.mk 50 "B" "A").owing ≠ (Debt.mk 50 "B" "A").owed :=
  no_self_debt pairTxs (Debt.mk 50 "B" "A") (by decide)

/-- C7: the settlement loop terminates within `n - 1` iterations for `n` initial entries:
any fuel of at least `n - 1` iterations computes the same, completed debt list, and the
number of emitted debts is at most `n - 1` (each iteration removes two entries and
reinserts at most one, so the map strictly shrinks). -/
theorem loop_terminates_bounded (txs : List Transaction) (fuel : Nat)
    (h : (sorted_balances txs).length ≤ fuel + 1) :
    settleLoopFuel fuel (sorted_balances txs) = simplify txs ∧
      (simplify txs).length ≤ (sorted_balances txs).length - 1 := by
  constructor
  · rw [simplify, settleLoop]
    exact settleLoopFuel_congr fuel _ _ h (by omega)
  · rw [simplify, settleLoop]
    exact settleLoopFuel_length _ _

/-- Witness for C7: on the five-transaction example (5 nonzero balances), 4 units of
fuel already complete the loop. -/
theorem loop_terminates_bounded_witness :
    settleLoopFuel 4 (sorted_balances exTxs) = simplify exTxs :=
  (loop_terminates_bounded exTxs 4 (by decide)).1

/-- C8: the aggregation phase is order-independent: permuting the transaction list leaves
every participant's net balance unchanged. -/
theorem balances_perm_invariant (l1 l2 : List Transaction) (h : l1.Perm l2) (p : Person) :
    balances l1 p = balances l2 p := by
  rw [balances_eq, balances_eq]
  exact (h.map _).sum_eq

/-- Witness for C8: swapping two transactions leaves a balance unchanged. -/
theorem balances_perm_invariant_witness :
    balances [⟨"A", [("B", 10)]⟩, ⟨"C", [("D", 10)]⟩] "A" =
      balances [⟨"C", [("D", 10)]⟩, ⟨"A", [("B", 10)]⟩] "A" :=
  balances_perm_invariant _ _ (by decide) "A"

/-- C9: `simplify` applied to the empty transaction list returns the empty debt list;
the embedding is a total function returning a plain list, with no fallible operation. -/
theorem simplify_empty : simplify [] = [] := rfl

/-- C10: the settlement loop never panics: running the loop with every implicit panic
made explicit (a failed `pop_first`/`pop_last` unwrap, or a zero amount key present in
the map at any iteration, would yield `none`) succeeds on every input and returns
exactly the debts of `simplify`. -/
theorem no_panic_checked_run (txs : List Transaction) :
    settleLoopChecked (sorted_balances txs).length (sorted_balances txs) =
      some (simplify txs) := by
  rw [simplify, settleLoop]
  exact settleLoopChecked_eq _ _ (sorted_balances_keys_nonzero txs)

end Splitwise
